import Mathlib

/-!
Verification of the `bitstream_iter` repository: the mask algebra
(`bitstream_iter/bitmasks.py`) and the lazy bit stream
(`bitstream_iter/bitstream.py`).

Modelling conventions, used throughout:

* Python integers are arbitrary precision, so they are embedded as `Int`;
  Python's bitwise `&` and `|` on such integers are exactly `Int.land` and
  `Int.lor` (two's complement over arbitrary precision).
* `width` and `reverse_group_width` are embedded as `Nat`.  In the source
  they are Python `int`s, but `range(width)` and `range(0, width, g)` are
  empty for every non-positive bound, so all non-positive widths behave
  exactly like `0`, which is how `0 : Nat` behaves here.  A
  `reverse_group_width` of `0` plays the role of the falsy defaults
  (`None` / `0`) tested by `if not reverse_group_width`.
* A Python function that can raise is embedded with an `Option` result,
  `none` standing for the raised exception.
-/

namespace BitstreamIter

/-- `create(width, signed, lsb_first, reverse_group_width)` from
`bitmasks.py`.  It builds `bits = [1 << n for n in range(width)]`, then
`if signed: bits.append(-bits.pop())` (popping an empty list raises, hence
the `Option`), then `if not lsb_first: bits.reverse()`, then
`if not reverse_group_width: return tuple(bits)`, otherwise re-emits the
slices `bits[s:s+g]` for `s` in `reversed(range(0, width, g))`. -/
def create (width : Nat) (signed : Bool) (lsb_first : Bool)
    (reverse_group_width : Nat) : Option (List Int) :=
  let bits : List Int := (List.range width).map (fun n => (2 : Int) ^ n)
  let afterSign : Option (List Int) :=
    if signed then
      match bits.getLast? with
      | none => none
      | some top => some (bits.dropLast ++ [-top])
    else some bits
  afterSign.map (fun bits1 =>
    let bits2 := if lsb_first then bits1 else bits1.reverse
    if reverse_group_width = 0 then bits2
    else
      let numStarts := (width + reverse_group_width - 1) / reverse_group_width
      let group_starts := ((List.range numStarts).map
        (fun i => i * reverse_group_width)).reverse
      (group_starts.map
        (fun s => (bits2.drop s).take reverse_group_width)).flatten)

/-- `apply(masks, value)` from `bitmasks.py`: each mask is independently
ANDed with the value, in the order of `masks`. -/
def apply (masks : List Int) (value : Int) : List Int :=
  masks.map (fun mask => Int.land value mask)

/-- `combine(masks, bits)` from `bitmasks.py`: walk `zip(bits, masks)`
(stopping at the shorter of the two) and OR the mask into the accumulator
whenever the paired bit is truthy. -/
def combine (masks : List Int) (bits : List Int) : Int :=
  (bits.zip masks).foldl
    (fun value bm => if bm.1 ≠ 0 then Int.lor value bm.2 else value) 0

/-- `INT8_MSB_FIRST = create(width=8, signed=True)`. -/
def INT8_MSB_FIRST : List Int := (create 8 true false 0).getD []

/-- `INT8_LSB_FIRST = create(width=8, signed=True, lsb_first=True)`. -/
def INT8_LSB_FIRST : List Int := (create 8 true true 0).getD []

/-- `UINT8_MSB_FIRST = create(width=8, signed=False)`. -/
def UINT8_MSB_FIRST : List Int := (create 8 false false 0).getD []

/-- `UINT8_LSB_FIRST = create(width=8, signed=False, lsb_first=True)`. -/
def UINT8_LSB_FIRST : List Int := (create 8 false true 0).getD []

/-- `make_bit(value)` from `bitstream.py`: truth-value testing, which for
an integer input is the test against `0`. -/
def make_bit (value : Int) : Int :=
  if value ≠ 0 then 1 else 0

/-!
The bit stream.  `BitStream._bit_sources` is a deque of lazy bit
producers; iterating the stream flattens them front to back, dropping each
producer once exhausted.  The claims about the stream only concern the
sequence of bits it will produce, so the state is embedded as that
flattened sequence, a `List Int` of already-normalized bits.
-/

/-- `BitStream.write_bits(values, at_start)`: the values, normalized by
`make_bit`, become a new producer at the back of the deque (front when
`at_start`).  On the flattened state this appends (or prepends) the
normalized bits. -/
def write_bits (values : List Int) (at_start : Bool) (s : List Int) :
    List Int :=
  if at_start then values.map make_bit ++ s else s ++ values.map make_bit

/-- `BitStream.write_ints(values, masks, at_start)`: lazily applies
`apply(masks, v)` to each value, flattens, and delegates to
`write_bits`. -/
def write_ints (values : List Int) (masks : List Int) (at_start : Bool)
    (s : List Int) : List Int :=
  write_bits ((values.map (apply masks)).flatten) at_start s

/-- `BitStream.write_bytes(values, masks, at_start)` is `write_ints`; the
`masks or self.byte_bitmasks` default resolution is embedded by taking
`UINT8_MSB_FIRST` (the constructor default) when `masks` is empty. -/
def write_bytes (values : List Int) (masks : List Int) (at_start : Bool)
    (s : List Int) : List Int :=
  write_ints values (if masks.isEmpty then UINT8_MSB_FIRST else masks)
    at_start s

/-- `BitStream.from_bytes(values, byte_bitmasks, end_fill)` seeds a fresh
stream with `write_bytes(values)`. -/
def from_bytes (values : List Int) (masks : List Int) : List Int :=
  write_bytes values masks false []

/-- `BitStream.iter_ints(masks, end_fill)` from `bitstream.py`, with the
`end_fill == -1` sentinel already resolved to the effective fill policy:
`none` is Python `None`, `some b` is the `Bit` value `b`.  Each round
pulls `len(masks)` bits (`itertools.islice`): zero bits available stops;
a short group under policy `None` is written back via
`self.write_bits(bits)` (the sources deque is empty at that moment, the
bit iterator having just been exhausted, so the resulting stream content
is exactly those bits) and stops; a short group under a truthy fill bit is
padded to `len(masks)`; otherwise the (possibly short) group is combined
and yielded.  Returns the yielded integers and the final stream state. -/
def iter_ints (masks : List Int) (end_fill : Option Int) (s : List Int) :
    List Int × List Int :=
  if h : (s.take masks.length).length = 0 then ([], s)
  else if (s.take masks.length).length < masks.length ∧ end_fill = none then
    ([], s)
  else
    let filled := match end_fill with
      | some b =>
          if b ≠ 0 then
            s.take masks.length ++
              List.replicate (masks.length - (s.take masks.length).length) b
          else s.take masks.length
      | none => s.take masks.length
    let rest := iter_ints masks end_fill (s.drop masks.length)
    (combine masks filled :: rest.1, rest.2)
termination_by s.length
decreasing_by
  simp only [List.length_take, List.length_drop] at h ⊢
  omega

/-- `BitStream.iter_bytes(masks, end_fill)`: `iter_ints` on
`masks or self.byte_bitmasks`, embedded with the constructor-default
`byte_bitmasks = UINT8_MSB_FIRST`. -/
def iter_bytes (masks : List Int) (end_fill : Option Int) (s : List Int) :
    List Int × List Int :=
  iter_ints (if masks.isEmpty then UINT8_MSB_FIRST else masks) end_fill s

/-- The canonical ascending mask sequence of a width: weights
`2^0 .. 2^(w-1)`, the top weight negated when signed.  Every mask
sequence `create` builds is a permutation of this list; the round-trip
arguments reduce to it. -/
def baseMasks (w : Nat) (signed : Bool) : List Int :=
  if signed then
    (List.range (w - 1)).map (fun k => (2 : Int) ^ k) ++ [-(2 : Int) ^ (w - 1)]
  else (List.range w).map (fun k => (2 : Int) ^ k)

/-- One step of the fold computed by `combine masks (apply masks v)`: the
mask is OR-ed into the accumulator exactly when `v AND mask` is truthy. -/
def combineStep (v : Int) (z m : Int) : Int :=
  if Int.land v m ≠ 0 then Int.lor z m else z

/-- Partition of a list into consecutive chunks of size `g` (last chunk
possibly short), as in the spec's description of grouping. -/
def chunksOf (g : Nat) : List α → List (List α)
  | [] => []
  | a :: l =>
    if g = 0 then []
    else (a :: l).take g :: chunksOf g ((a :: l).drop g)
termination_by l => l.length
decreasing_by simp; omega

/-- The spec's description of `create` (claim C2): list the weights
`2^0 .. 2^(width-1)` ascending; if signed, replace the last (highest)
weight by its negation; if not `lsb_first`, reverse the whole sequence;
if `group_width` is given (nonzero), partition into consecutive chunks of
`group_width` and concatenate the chunks in reverse order. -/
def create_spec (width : Nat) (signed lsb_first : Bool)
    (group_width : Nat) : List Int :=
  let asc := (List.range width).map (fun n => (2 : Int) ^ n)
  let s1 := if signed then asc.dropLast ++ [-(2 : Int) ^ (width - 1)] else asc
  let s2 := if lsb_first then s1 else s1.reverse
  if group_width = 0 then s2 else ((chunksOf group_width s2).reverse).flatten

/-!
Laziness model (claim C9).  A caller-supplied lazy value source may raise
when one of its elements is pulled; such a source is embedded as a
`List (Except ε Int)`: `.ok v` is an element that yields `v`, `.error e`
is the element whose pull raises `e`.  Writes store sources without
pulling them (they are total functions on these token lists), and a
producer dies at its first raise, so nothing after an `.error` of the same
source is ever seen.  The stream state is the flattened token sequence.
-/

/-- Pull up to `n` bits from the token stream, as `itertools.islice` pulls
from the stream's bit iterator: stops after `n` bits, at the end of the
stream, or at the first raising element, which is consumed and whose
error is surfaced (the bits pulled before it stay consumed). -/
def pull_bits {ε : Type} : Nat → List (Except ε Int) →
    List Int × Option ε × List (Except ε Int)
  | 0, s => ([], none, s)
  | _ + 1, [] => ([], none, [])
  | n + 1, Except.ok b :: s =>
    let r := pull_bits n s
    (b :: r.1, r.2.1, r.2.2)
  | _ + 1, Except.error e :: s => ([], some e, s)

/-- `write_bits` on the token stream: each value is normalized by
`make_bit` when it is eventually pulled; a raising element raises
unmodified.  Writing itself never pulls and never raises. -/
def write_bits_exc {ε : Type} (values : List (Except ε Int))
    (s : List (Except ε Int)) : List (Except ε Int) :=
  s ++ values.map (Except.map make_bit)

/-- The flat bit-token source `write_ints` builds from a lazy value
source: `itertools.chain.from_iterable(apply(masks, v) for v in values)`.
Pulling the raising value raises, killing the producer, so later values
contribute nothing. -/
def int_bit_tokens {ε : Type} (masks : List Int) :
    List (Except ε Int) → List (Except ε Int)
  | [] => []
  | Except.ok v :: rest => (apply masks v).map Except.ok ++ int_bit_tokens masks rest
  | Except.error e :: _ => [Except.error e]

/-- `write_ints` on the token stream. -/
def write_ints_exc {ε : Type} (values : List (Except ε Int))
    (masks : List Int) (s : List (Except ε Int)) : List (Except ε Int) :=
  write_bits_exc (int_bit_tokens masks values) s

/-- `iter_ints` on the token stream: as `iter_ints`, but a raise met while
pulling a group aborts the drain there, surfacing the error; the group
bits pulled before the raise stay consumed, and the stream retains the
tokens after the raising element. -/
def iter_ints_exc {ε : Type} (masks : List Int) (end_fill : Option Int)
    (s : List (Except ε Int)) :
    List Int × Option ε × List (Except ε Int) :=
  let r := pull_bits masks.length s
  match r.2.1 with
  | some e => ([], some e, r.2.2)
  | none =>
    if r.1.length = 0 then ([], none, r.2.2)
    else if r.1.length < masks.length ∧ end_fill = none then
      ([], none, r.1.map (fun b => Except.ok (make_bit b)) ++ r.2.2)
    else
      let filled := match end_fill with
        | some b =>
            if b ≠ 0 then r.1 ++ List.replicate (masks.length - r.1.length) b
            else r.1
        | none => r.1
      let rest := iter_ints_exc masks end_fill r.2.2
      (combine masks filled :: rest.1, rest.2.1, rest.2.2)
termination_by s.length
decreasing_by
  have key : ∀ (n : Nat) (t : List (Except ε Int)),
      (pull_bits n t).1.length + (pull_bits n t).2.2.length ≤ t.length := by
    intro n
    induction n with
    | zero => intro t; simp [pull_bits]
    | succ n ih =>
      intro t
      cases t with
      | nil => simp [pull_bits]
      | cons hd t' =>
        cases hd with
        | ok b =>
          have := ih t'
          simp only [pull_bits, List.length_cons]
          omega
        | error e => simp [pull_bits]
  have h2 : r.1.length + r.2.2.length ≤ s.length := key masks.length s
  have h3 : r.1.length = (pull_bits masks.length s).1.length := rfl
  have h4 : r.2.2.length = (pull_bits masks.length s).2.2.length := rfl
  omega

/-! ### Computation rules for Python's arbitrary-precision `&` and `|` -/

theorem int_land_ofNat_ofNat (m n : Nat) :
    Int.land (Int.ofNat m) (Int.ofNat n) = Int.ofNat (m &&& n) := rfl

theorem int_land_ofNat_negSucc (m n : Nat) :
    Int.land (Int.ofNat m) (Int.negSucc n) = Int.ofNat (Nat.ldiff m n) := rfl

theorem int_land_negSucc_ofNat (m n : Nat) :
    Int.land (Int.negSucc m) (Int.ofNat n) = Int.ofNat (Nat.ldiff n m) := rfl

theorem int_land_negSucc_negSucc (m n : Nat) :
    Int.land (Int.negSucc m) (Int.negSucc n) = Int.negSucc (m ||| n) := rfl

theorem int_lor_ofNat_ofNat (m n : Nat) :
    Int.lor (Int.ofNat m) (Int.ofNat n) = Int.ofNat (m ||| n) := rfl

theorem int_lor_ofNat_negSucc (m n : Nat) :
    Int.lor (Int.ofNat m) (Int.negSucc n) = Int.negSucc (Nat.ldiff n m) := rfl

theorem int_lor_negSucc_ofNat (m n : Nat) :
    Int.lor (Int.negSucc m) (Int.ofNat n) = Int.negSucc (Nat.ldiff m n) := rfl

theorem int_lor_negSucc_negSucc (m n : Nat) :
    Int.lor (Int.negSucc m) (Int.negSucc n) = Int.negSucc (m &&& n) := rfl

theorem int_lor_right_comm (z x y : Int) :
    Int.lor (Int.lor z x) y = Int.lor (Int.lor z y) x := by
  rcases z with a | a <;> rcases x with b | b <;> rcases y with c | c <;>
    simp only [int_lor_ofNat_ofNat, int_lor_ofNat_negSucc, int_lor_negSucc_ofNat,
      int_lor_negSucc_negSucc] <;>
    apply congrArg <;>
    apply Nat.eq_of_testBit_eq <;>
    intro k <;>
    simp only [Nat.testBit_lor, Nat.testBit_land, Nat.testBit_ldiff] <;>
    cases a.testBit k <;> cases b.testBit k <;> cases c.testBit k <;> rfl

/-! ### `combine ∘ apply` as a single fold over the masks -/

theorem combine_map_zip_foldl (v : Int) (ms : List Int) (acc : Int) :
    ((ms.map (fun mask => Int.land v mask)).zip ms).foldl
        (fun value bm => if bm.1 ≠ 0 then Int.lor value bm.2 else value) acc
      = ms.foldl (combineStep v) acc := by
  induction ms generalizing acc with
  | nil => rfl
  | cons m ms ih =>
    simp only [List.map_cons, List.zip_cons_cons, List.foldl_cons]
    rw [ih]
    rfl

theorem combine_apply_eq_foldl (masks : List Int) (v : Int) :
    combine masks (apply masks v) = masks.foldl (combineStep v) 0 :=
  combine_map_zip_foldl v masks 0

theorem combine_foldl_perm (v : Int) {ms1 ms2 : List Int} (p : ms1.Perm ms2) :
    ms1.foldl (combineStep v) 0 = ms2.foldl (combineStep v) 0 := by
  refine p.foldl_eq' ?_ 0
  intro x _ y _ z
  unfold combineStep
  by_cases h1 : Int.land v x ≠ 0 <;> by_cases h2 : Int.land v y ≠ 0 <;>
    simp [h1, h2, int_lor_right_comm]

/-! ### The round trip over the canonical ascending masks -/

theorem nat_fold_and_two_pow (n w : Nat) :
    (List.range w).foldl
        (fun a k => if n &&& 2 ^ k ≠ 0 then a ||| 2 ^ k else a) 0
      = n % 2 ^ w := by
  induction w with
  | zero => simp [Nat.mod_one]
  | succ w ih =>
    rw [List.range_succ, List.foldl_append, List.foldl_cons, List.foldl_nil, ih]
    by_cases h : n.testBit w
    · have hc : n &&& 2 ^ w ≠ 0 := by
        rw [Nat.and_two_pow, h]
        simpa using Nat.pos_iff.mp (Nat.two_pow_pos w)
      rw [if_pos hc]
      apply Nat.eq_of_testBit_eq
      intro j
      simp only [Nat.testBit_lor, Nat.testBit_mod_two_pow, Nat.testBit_two_pow]
      rcases Nat.lt_trichotomy j w with hj | rfl | hj
      · rw [decide_eq_true hj, decide_eq_true (by omega : j < w + 1),
          decide_eq_false (by omega : ¬ w = j)]
        simp
      · rw [decide_eq_false (by omega : ¬ j < j), decide_eq_true rfl,
          decide_eq_true (by omega : j < j + 1), h]
        simp
      · rw [decide_eq_false (by omega : ¬ j < w), decide_eq_false (by omega : ¬ j < w + 1),
          decide_eq_false (by omega : ¬ w = j)]
        simp
    · have hc : ¬ n &&& 2 ^ w ≠ 0 := by
        simp only [Nat.and_two_pow]
        simp [h]
      rw [if_neg hc]
      apply Nat.eq_of_testBit_eq
      intro j
      simp only [Nat.testBit_mod_two_pow]
      rcases Nat.lt_trichotomy j w with hj | rfl | hj
      · rw [decide_eq_true hj, decide_eq_true (by omega : j < w + 1)]
      · rw [decide_eq_false (by omega : ¬ j < j), decide_eq_true (by omega : j < j + 1)]
        simp [Bool.not_eq_true] at h
        simp [h]
      · rw [decide_eq_false (by omega : ¬ j < w), decide_eq_false (by omega : ¬ j < w + 1)]

theorem nat_ldiff_two_pow (m k : Nat) :
    Nat.ldiff (2 ^ k) m = if m.testBit k then 0 else 2 ^ k := by
  by_cases hm : m.testBit k
  · rw [if_pos hm]
    apply Nat.eq_of_testBit_eq
    intro j
    simp only [Nat.testBit_ldiff, Nat.testBit_two_pow, Nat.zero_testBit]
    rcases eq_or_ne k j with rfl | hne
    · simp [hm]
    · simp [hne]
  · rw [if_neg hm]
    apply Nat.eq_of_testBit_eq
    intro j
    simp only [Nat.testBit_ldiff, Nat.testBit_two_pow]
    rcases eq_or_ne k j with rfl | hne
    · simp [hm]
    · simp [hne]

theorem nat_fold_ldiff_two_pow (m w : Nat) :
    (List.range w).foldl
        (fun a k => if Nat.ldiff (2 ^ k) m ≠ 0 then a ||| 2 ^ k else a) 0
      = Nat.ldiff (2 ^ w - 1) m := by
  induction w with
  | zero =>
    simp only [List.range_zero, List.foldl_nil, pow_zero]
    apply Nat.eq_of_testBit_eq
    intro j
    simp [Nat.testBit_ldiff]
  | succ w ih =>
    rw [List.range_succ, List.foldl_append, List.foldl_cons, List.foldl_nil, ih]
    by_cases h : m.testBit w
    · have hc : ¬ Nat.ldiff (2 ^ w) m ≠ 0 := by
        rw [nat_ldiff_two_pow, if_pos h]
        simp
      rw [if_neg hc]
      apply Nat.eq_of_testBit_eq
      intro j
      simp only [Nat.testBit_ldiff, Nat.testBit_two_pow_sub_one]
      rcases Nat.lt_trichotomy j w with hj | rfl | hj
      · rw [decide_eq_true hj, decide_eq_true (by omega : j < w + 1)]
      · rw [decide_eq_false (by omega : ¬ j < j), decide_eq_true (by omega : j < j + 1), h]
        simp
      · rw [decide_eq_false (by omega : ¬ j < w), decide_eq_false (by omega : ¬ j < w + 1)]
    · have hc : Nat.ldiff (2 ^ w) m ≠ 0 := by
        rw [nat_ldiff_two_pow, if_neg h]
        simpa using Nat.pos_iff.mp (Nat.two_pow_pos w)
      rw [if_pos hc]
      apply Nat.eq_of_testBit_eq
      intro j
      simp only [Nat.testBit_lor, Nat.testBit_ldiff, Nat.testBit_two_pow_sub_one,
        Nat.testBit_two_pow]
      rcases Nat.lt_trichotomy j w with hj | rfl | hj
      · rw [decide_eq_true hj, decide_eq_true (by omega : j < w + 1),
          decide_eq_false (by omega : ¬ w = j)]
        simp
      · rw [decide_eq_false (by omega : ¬ j < j), decide_eq_true rfl,
          decide_eq_true (by omega : j < j + 1)]
        simp [Bool.not_eq_true] at h
        simp [h]
      · rw [decide_eq_false (by omega : ¬ j < w), decide_eq_false (by omega : ¬ j < w + 1),
          decide_eq_false (by omega : ¬ w = j)]
        simp

theorem foldl_map_ofNat {f : Nat → Nat → Nat} {g : Int → Int → Int}
    (hfg : ∀ a m, g (Int.ofNat a) (Int.ofNat m) = Int.ofNat (f a m))
    (ms : List Nat) (a : Nat) :
    (ms.map Int.ofNat).foldl g (Int.ofNat a) = Int.ofNat (ms.foldl f a) := by
  induction ms generalizing a with
  | nil => rfl
  | cons m ms ih => simp only [List.map_cons, List.foldl_cons, hfg, ih]

theorem two_pow_int_ofNat (k : Nat) : (2 : Int) ^ k = Int.ofNat (2 ^ k) := by
  simp [Int.ofNat_eq_natCast]

theorem base_map_ofNat (w : Nat) :
    (List.range w).map (fun k => (2 : Int) ^ k)
      = ((List.range w).map (fun k => 2 ^ k)).map Int.ofNat := by
  rw [List.map_map]
  exact List.map_congr_left (fun k _ => two_pow_int_ofNat k)

theorem combine_foldl_baseU_ofNat (w n : Nat) :
    ((List.range w).map (fun k => (2 : Int) ^ k)).foldl
        (combineStep (Int.ofNat n)) 0
      = Int.ofNat (n % 2 ^ w) := by
  rw [base_map_ofNat]
  rw [show (0 : Int) = Int.ofNat 0 from rfl]
  rw [foldl_map_ofNat (f := fun a m => if n &&& m ≠ 0 then a ||| m else a)]
  · rw [List.foldl_map, nat_fold_and_two_pow]
  · intro a m
    simp only [combineStep, int_land_ofNat_ofNat, int_lor_ofNat_ofNat]
    by_cases h : n &&& m = 0 <;> simp [h, Int.ofNat_eq_natCast]

theorem combine_foldl_baseU_negSucc (w m : Nat) :
    ((List.range w).map (fun k => (2 : Int) ^ k)).foldl
        (combineStep (Int.negSucc m)) 0
      = Int.ofNat (Nat.ldiff (2 ^ w - 1) m) := by
  rw [base_map_ofNat]
  rw [show (0 : Int) = Int.ofNat 0 from rfl]
  rw [foldl_map_ofNat (f := fun a p => if Nat.ldiff p m ≠ 0 then a ||| p else a)]
  · rw [List.foldl_map, nat_fold_ldiff_two_pow]
  · intro a p
    simp only [combineStep, int_land_negSucc_ofNat, int_lor_ofNat_ofNat]
    by_cases h : Nat.ldiff p m = 0 <;> simp [h, Int.ofNat_eq_natCast]

theorem neg_two_pow_eq_negSucc (u : Nat) :
    -(2 : Int) ^ u = Int.negSucc (2 ^ u - 1) := by
  rw [Int.negSucc_eq]
  have h1 : (1 : Nat) ≤ 2 ^ u := Nat.one_le_two_pow
  push_cast [h1]
  ring

theorem nat_ldiff_eq_zero_of_lt {n u : Nat} (h : n < 2 ^ u) :
    Nat.ldiff n (2 ^ u - 1) = 0 := by
  apply Nat.eq_of_testBit_eq
  intro j
  simp only [Nat.testBit_ldiff, Nat.testBit_two_pow_sub_one, Nat.zero_testBit]
  by_cases hj : j < u
  · simp [hj]
  · have : n < 2 ^ j :=
      lt_of_lt_of_le h (Nat.pow_le_pow_right (by norm_num) (by omega))
    simp [Nat.testBit_eq_false_of_lt this]

theorem nat_ldiff_ldiff_self {m u : Nat} (h : m < 2 ^ u) :
    Nat.ldiff (2 ^ u - 1) (Nat.ldiff (2 ^ u - 1) m) = m := by
  apply Nat.eq_of_testBit_eq
  intro j
  simp only [Nat.testBit_ldiff, Nat.testBit_two_pow_sub_one]
  by_cases hj : j < u
  · rw [decide_eq_true hj]
    cases hm : m.testBit j <;> simp [hm]
  · have : m < 2 ^ j :=
      lt_of_lt_of_le h (Nat.pow_le_pow_right (by norm_num) (by omega))
    rw [decide_eq_false hj]
    simp [Nat.testBit_eq_false_of_lt this]

theorem roundtrip_baseMasks (w : Nat) (signed : Bool) (v : Int)
    (hw : 0 < w)
    (hv : if signed = true then -(2 : Int) ^ (w - 1) ≤ v ∧ v < (2 : Int) ^ (w - 1)
      else 0 ≤ v ∧ v < (2 : Int) ^ w) :
    (baseMasks w signed).foldl (combineStep v) 0 = v := by
  cases signed with
  | false =>
    rw [if_neg (show ¬ (false = true) by decide)] at hv
    unfold baseMasks
    rw [if_neg (show ¬ (false = true) by decide)]
    rcases v with n | n
    · rw [combine_foldl_baseU_ofNat]
      have hn : n < 2 ^ w := by
        have := hv.2
        rw [two_pow_int_ofNat, Int.ofNat_eq_natCast, Int.ofNat_eq_natCast] at this
        exact_mod_cast this
      rw [Nat.mod_eq_of_lt hn]
    · exact absurd hv.1 (by simp [Int.negSucc_not_nonneg])
  | true =>
    rw [if_pos (show (true = true) from rfl)] at hv
    unfold baseMasks
    rw [if_pos (show (true = true) from rfl)]
    rw [List.foldl_append, List.foldl_cons, List.foldl_nil]
    rcases v with n | n
    · have hn : n < 2 ^ (w - 1) := by
        have := hv.2
        rw [two_pow_int_ofNat, Int.ofNat_eq_natCast, Int.ofNat_eq_natCast] at this
        exact_mod_cast this
      rw [combine_foldl_baseU_ofNat, Nat.mod_eq_of_lt hn]
      rw [neg_two_pow_eq_negSucc]
      unfold combineStep
      rw [int_land_ofNat_negSucc, nat_ldiff_eq_zero_of_lt hn]
      simp
    · have hn : n < 2 ^ (w - 1) := by
        have h1 := hv.1
        rw [Int.negSucc_eq, neg_two_pow_eq_negSucc, Int.negSucc_eq] at h1
        have h2 : (n : Int) + 1 ≤ ((2 ^ (w - 1) - 1 : Nat) : Int) + 1 := by omega
        have h3 : (1 : Nat) ≤ 2 ^ (w - 1) := Nat.one_le_two_pow
        have h4 : ((2 ^ (w - 1) - 1 : Nat) : Int) = (2 ^ (w - 1) : Nat) - 1 := by
          push_cast [h3]; ring
        rw [h4] at h2
        have h5 : (n : Int) < ((2 ^ (w - 1) : Nat) : Int) := by omega
        exact_mod_cast h5
      rw [combine_foldl_baseU_negSucc]
      rw [neg_two_pow_eq_negSucc]
      unfold combineStep
      rw [int_land_negSucc_negSucc]
      rw [if_pos (by simp)]
      rw [int_lor_ofNat_negSucc, nat_ldiff_ldiff_self hn]

/-! ### Characterization of `create` -/

theorem lt_div_succ_mul (a g : Nat) (hg : 0 < g) : a < (a / g + 1) * g := by
  have h1 : g * (a / g) + a % g = a := Nat.div_add_mod a g
  have h2 : a % g < g := Nat.mod_lt a hg
  calc a = g * (a / g) + a % g := h1.symm
    _ < g * (a / g) + g := Nat.add_lt_add_left h2 _
    _ = (a / g + 1) * g := by rw [Nat.succ_mul, Nat.mul_comm]

theorem ceil_mul_ge (L g : Nat) (hg : 0 < g) : L ≤ ((L + g - 1) / g) * g := by
  rcases Nat.eq_zero_or_pos L with rfl | hL
  · exact Nat.zero_le _
  · have h1 : L + g - 1 = (L - 1) + g := by omega
    rw [h1, Nat.add_div_right _ hg]
    exact Nat.le_of_pred_lt (lt_div_succ_mul (L - 1) g hg)

theorem flatten_map_nil {α β : Type u} (xs : List β) :
    (xs.map (fun _ => ([] : List α))).flatten = [] := by
  induction xs with
  | nil => rfl
  | cons x xs ih => simp [ih]

theorem flatten_slices_eq_chunks {α : Type u} (g : Nat) (hg : g ≠ 0) :
    ∀ (n : Nat) (l : List α), l.length ≤ n * g →
      ((((List.range n).map (fun i => i * g)).reverse.map
          (fun st => (l.drop st).take g)).flatten)
        = ((chunksOf g l).reverse).flatten := by
  intro n
  induction n with
  | zero =>
    intro l hl
    have : l = [] := List.eq_nil_of_length_eq_zero (by omega)
    subst this
    simp [chunksOf]
  | succ n ih =>
    intro l hl
    rw [Nat.succ_mul] at hl
    have hlen : (l.drop g).length ≤ n * g := by
      rw [List.length_drop]
      exact Nat.sub_le_iff_le_add.mpr hl
    rw [List.range_succ_eq_map, List.map_cons, List.reverse_cons, List.map_append,
      List.flatten_append, List.map_map]
    rw [List.map_reverse, List.map_map]
    have hcomp2 : ((fun st => (l.drop st).take g) ∘ ((fun i => i * g) ∘ Nat.succ))
        = ((fun st => ((l.drop g).drop st).take g) ∘ fun i => i * g) := by
      funext i
      show (l.drop (Nat.succ i * g)).take g = ((l.drop g).drop (i * g)).take g
      rw [Nat.succ_mul, Nat.add_comm, ← List.drop_drop]
    rw [hcomp2, ← List.map_map, ← List.map_reverse]
    rw [ih (l.drop g) hlen]
    simp only [Nat.zero_mul, List.map_cons, List.map_nil, List.flatten_cons,
      List.flatten_nil, List.append_nil, List.drop_zero]
    cases l with
    | nil =>
      simp [chunksOf]
    | cons a t =>
      have hch : chunksOf g (a :: t)
          = (a :: t).take g :: chunksOf g ((a :: t).drop g) := by
        simp only [chunksOf]
        rw [if_neg hg]
      rw [hch, List.reverse_cons, List.flatten_append]
      simp

theorem chunksOf_flatten {α : Type u} (g : Nat) (hg : g ≠ 0) (l : List α) :
    (chunksOf g l).flatten = l := by
  have key : ∀ (n : Nat) (l : List α), l.length ≤ n → (chunksOf g l).flatten = l := by
    intro n
    induction n with
    | zero =>
      intro l hl
      have : l = [] := List.eq_nil_of_length_eq_zero (by omega)
      subst this
      simp [chunksOf]
    | succ n ih =>
      intro l hl
      cases l with
      | nil => simp [chunksOf]
      | cons a t =>
        have hch : chunksOf g (a :: t)
            = (a :: t).take g :: chunksOf g ((a :: t).drop g) := by
          simp only [chunksOf]
          rw [if_neg hg]
        rw [hch, List.flatten_cons]
        rw [ih ((a :: t).drop g)
          (by simp only [List.length_cons] at hl
              simp only [List.length_drop, List.length_cons]
              omega)]
        exact List.take_append_drop g (a :: t)
  exact key l.length l (Nat.le_refl _)

theorem create_eq_none_iff (w : Nat) (signed lsb_first : Bool) (g : Nat) :
    create w signed lsb_first g = none ↔ signed = true ∧ w = 0 := by
  simp only [create]
  cases signed with
  | false => simp
  | true =>
    cases w with
    | zero => simp
    | succ u =>
      rw [List.range_succ, List.map_append, List.map_cons, List.map_nil,
        List.getLast?_concat]
      simp

theorem create_eq_create_spec (w : Nat) (signed lsb_first : Bool) (g : Nat)
    (hw : 0 < w) :
    create w signed lsb_first g = some (create_spec w signed lsb_first g) := by
  obtain ⟨u, rfl⟩ : ∃ u, w = u + 1 := ⟨w - 1, by omega⟩
  have hbits : (List.range (u + 1)).map (fun n => (2 : Int) ^ n)
      = (List.range u).map (fun n => (2 : Int) ^ n) ++ [(2 : Int) ^ u] := by
    rw [List.range_succ, List.map_append, List.map_cons, List.map_nil]
  simp only [create, create_spec]
  rw [hbits]
  cases signed with
  | false =>
    rw [if_neg (show ¬ (false = true) by decide),
      if_neg (show ¬ (false = true) by decide)]
    rw [Option.map_some']
    congr 1
    have hlen : ((List.range u).map (fun n => (2 : Int) ^ n)
        ++ [(2 : Int) ^ u]).length = u + 1 := by simp
    by_cases hgz : g = 0
    · simp [hgz]
    · rw [if_neg hgz, if_neg hgz]
      cases lsb_first with
      | false =>
        exact flatten_slices_eq_chunks g hgz _ _
          (by simpa [hlen] using ceil_mul_ge (u + 1) g (Nat.pos_of_ne_zero hgz))
      | true =>
        exact flatten_slices_eq_chunks g hgz _ _
          (by simpa [hlen] using ceil_mul_ge (u + 1) g (Nat.pos_of_ne_zero hgz))
  | true =>
    rw [if_pos (show (true = true) from rfl), if_pos (show (true = true) from rfl)]
    rw [List.getLast?_concat, List.dropLast_concat]
    rw [Option.map_some']
    congr 1
    simp only [Nat.add_sub_cancel]
    have hlen : ((List.range u).map (fun n => (2 : Int) ^ n)
        ++ [-(2 : Int) ^ u]).length = u + 1 := by simp
    by_cases hgz : g = 0
    · simp [hgz]
    · rw [if_neg hgz, if_neg hgz]
      cases lsb_first with
      | false =>
        exact flatten_slices_eq_chunks g hgz _ _
          (by simpa [hlen] using ceil_mul_ge (u + 1) g (Nat.pos_of_ne_zero hgz))
      | true =>
        exact flatten_slices_eq_chunks g hgz _ _
          (by simpa [hlen] using ceil_mul_ge (u + 1) g (Nat.pos_of_ne_zero hgz))

theorem create_spec_perm_baseMasks (w : Nat) (signed lsb_first : Bool)
    (g : Nat) (hw : 0 < w) :
    (create_spec w signed lsb_first g).Perm (baseMasks w signed) := by
  simp only [create_spec, baseMasks]
  have hs1 : (if signed = true then
        ((List.range w).map (fun n => (2 : Int) ^ n)).dropLast
          ++ [-(2 : Int) ^ (w - 1)]
      else (List.range w).map (fun n => (2 : Int) ^ n))
      = (if signed = true then
        (List.range (w - 1)).map (fun k => (2 : Int) ^ k) ++ [-(2 : Int) ^ (w - 1)]
      else (List.range w).map (fun k => (2 : Int) ^ k)) := by
    cases signed with
    | false => rfl
    | true =>
      rw [if_pos (show (true = true) from rfl), if_pos (show (true = true) from rfl)]
      congr 1
      obtain ⟨u, rfl⟩ : ∃ u, w = u + 1 := ⟨w - 1, by omega⟩
      rw [List.range_succ, List.map_append, List.map_cons, List.map_nil,
        List.dropLast_concat, Nat.add_sub_cancel]
  rw [hs1]
  set base := (if signed = true then
      (List.range (w - 1)).map (fun k => (2 : Int) ^ k) ++ [-(2 : Int) ^ (w - 1)]
    else (List.range w).map (fun k => (2 : Int) ^ k)) with hbase
  have hs2 : (if lsb_first = true then base else base.reverse).Perm base := by
    cases lsb_first with
    | false => exact List.reverse_perm base
    | true => exact List.Perm.refl base
  by_cases hgz : g = 0
  · rw [if_pos hgz]
    exact hs2
  · rw [if_neg hgz]
    refine List.Perm.trans ?_ hs2
    refine List.Perm.trans
      (List.Perm.flatten (List.reverse_perm (chunksOf g
        (if lsb_first = true then base else base.reverse)))) ?_
    rw [chunksOf_flatten g hgz]

/-! ### Elementary facts about `combine` -/

theorem combine_nil_masks (bits : List Int) : combine [] bits = 0 := by
  unfold combine
  rw [List.zip_nil_right]
  rfl

theorem combine_nil_bits (masks : List Int) : combine masks [] = 0 := rfl

theorem apply_nil (v : Int) : apply [] v = [] := rfl

theorem combine_map_make_bit (ms bits : List Int) :
    combine ms (bits.map make_bit) = combine ms bits := by
  unfold combine
  have aux : ∀ (bits ms : List Int) (acc : Int),
      ((bits.map make_bit).zip ms).foldl
          (fun value bm => if bm.1 ≠ 0 then Int.lor value bm.2 else value) acc
        = (bits.zip ms).foldl
          (fun value bm => if bm.1 ≠ 0 then Int.lor value bm.2 else value) acc := by
    intro bits
    induction bits with
    | nil => intro ms acc; rfl
    | cons b bs ih =>
      intro ms acc
      cases ms with
      | nil => rfl
      | cons m ms' =>
        simp only [List.map_cons, List.zip_cons_cons, List.foldl_cons]
        rw [ih]
        congr 1
        by_cases hb : b = 0 <;> simp [make_bit, hb]
  exact aux bits ms 0

theorem combine_append_replicate_zero (ms bits : List Int) (k : Nat) :
    combine ms (bits ++ List.replicate k 0) = combine ms bits := by
  unfold combine
  have aux0 : ∀ (k : Nat) (ms : List Int) (acc : Int),
      ((List.replicate k (0 : Int)).zip ms).foldl
          (fun value (bm : Int × Int) =>
            if bm.1 ≠ 0 then Int.lor value bm.2 else value) acc
        = acc := by
    intro k
    induction k with
    | zero => intro ms acc; rfl
    | succ k ih =>
      intro ms acc
      cases ms with
      | nil => rfl
      | cons m ms' =>
        simp only [List.replicate_succ, List.zip_cons_cons, List.foldl_cons]
        simpa using ih ms' acc
  have aux : ∀ (bits ms : List Int) (acc : Int),
      (((bits ++ List.replicate k 0).zip ms)).foldl
          (fun value (bm : Int × Int) =>
            if bm.1 ≠ 0 then Int.lor value bm.2 else value) acc
        = ((bits.zip ms)).foldl
          (fun value (bm : Int × Int) =>
            if bm.1 ≠ 0 then Int.lor value bm.2 else value) acc := by
    intro bits
    induction bits with
    | nil => intro ms acc; exact aux0 k ms acc
    | cons b bs ih =>
      intro ms acc
      cases ms with
      | nil => rfl
      | cons m ms' =>
        simp only [List.cons_append, List.zip_cons_cons, List.foldl_cons]
        exact ih ms' _
  exact aux bits ms 0

theorem combine_eq_filter_foldl (ms bits : List Int) :
    combine ms bits
      = (((bits.zip ms).filter (fun bm => decide (bm.1 ≠ 0))).map
          Prod.snd).foldl Int.lor 0 := by
  unfold combine
  have aux : ∀ (l : List (Int × Int)) (acc : Int),
      l.foldl (fun value bm => if bm.1 ≠ 0 then Int.lor value bm.2 else value) acc
        = ((l.filter (fun bm => decide (bm.1 ≠ 0))).map Prod.snd).foldl
            Int.lor acc := by
    intro l
    induction l with
    | nil => intro acc; rfl
    | cons p l ih =>
      intro acc
      by_cases hp : p.1 ≠ 0
      · have hd : decide (p.1 ≠ 0) = true := decide_eq_true hp
        rw [List.foldl_cons, List.filter_cons, hd, if_pos rfl, List.map_cons,
          List.foldl_cons, ih]
        congr 1
        simp [hp]
      · have hd : decide (p.1 ≠ 0) = false := decide_eq_false hp
        rw [List.foldl_cons, List.filter_cons, hd,
          if_neg (show ¬ (false = true) by decide), ih]
        congr 1
        simp [hp]
  exact aux (bits.zip ms) 0

/-- The round trip over any permutation of the canonical masks. -/
theorem roundtrip_of_perm (w : Nat) (signed : Bool) (masks : List Int)
    (v : Int) (hw : 0 < w) (hp : masks.Perm (baseMasks w signed))
    (hv : if signed = true then
        -(2 : Int) ^ (w - 1) ≤ v ∧ v < (2 : Int) ^ (w - 1)
      else 0 ≤ v ∧ v < (2 : Int) ^ w) :
    combine masks (apply masks v) = v := by
  rw [combine_apply_eq_foldl, combine_foldl_perm v hp,
    roundtrip_baseMasks w signed v hw hv]

/-! ### Evaluation rules for `iter_ints` -/

theorem iter_ints_nil_masks (end_fill : Option Int) (s : List Int) :
    iter_ints [] end_fill s = ([], s) := by
  rw [iter_ints.eq_def]
  simp

theorem iter_ints_nil (masks : List Int) (end_fill : Option Int) :
    iter_ints masks end_fill [] = ([], []) := by
  rw [iter_ints.eq_def]
  simp

theorem iter_ints_full (masks : List Int) (end_fill : Option Int)
    (g r : List Int) (hg : g.length = masks.length) (hm : 0 < masks.length) :
    iter_ints masks end_fill (g ++ r)
      = (combine masks g :: (iter_ints masks end_fill r).1,
          (iter_ints masks end_fill r).2) := by
  have htake : (g ++ r).take masks.length = g := List.take_left' hg
  have hdrop : (g ++ r).drop masks.length = r := List.drop_left' hg
  rw [iter_ints.eq_def, htake, hdrop]
  rw [dif_neg (by omega : ¬ g.length = 0)]
  rw [if_neg (by simp [hg] : ¬ (g.length < masks.length ∧ end_fill = none))]
  rcases end_fill with _ | b
  · rfl
  · by_cases hb : b = 0
    · simp [hb]
    · simp [hb, hg]

theorem iter_ints_short_none (masks : List Int) (s : List Int)
    (h1 : 0 < s.length) (h2 : s.length < masks.length) :
    iter_ints masks none s = ([], s) := by
  have htake : s.take masks.length = s := List.take_of_length_le (by omega)
  rw [iter_ints.eq_def, htake]
  rw [dif_neg (by omega : ¬ s.length = 0)]
  rw [if_pos ⟨h2, rfl⟩]

theorem iter_ints_short_zero (masks : List Int) (s : List Int)
    (h1 : 0 < s.length) (h2 : s.length < masks.length) :
    iter_ints masks (some 0) s = ([combine masks s], []) := by
  have htake : s.take masks.length = s := List.take_of_length_le (by omega)
  have hdrop : s.drop masks.length = [] := List.drop_eq_nil_of_le (by omega)
  rw [iter_ints.eq_def, htake, hdrop]
  rw [dif_neg (by omega : ¬ s.length = 0)]
  rw [if_neg (by simp : ¬ (s.length < masks.length ∧ (some (0 : Int)) = none))]
  rw [iter_ints_nil]
  simp

theorem iter_ints_length_le (masks : List Int) (end_fill : Option Int) :
    ∀ s : List Int, (iter_ints masks end_fill s).1.length ≤ s.length := by
  have key : ∀ (n : Nat) (s : List Int), s.length ≤ n →
      (iter_ints masks end_fill s).1.length ≤ s.length := by
    intro n
    induction n with
    | zero =>
      intro s hs
      have : s = [] := List.eq_nil_of_length_eq_zero (by omega)
      subst this
      rw [iter_ints_nil]
    | succ n ih =>
      intro s hs
      rw [iter_ints.eq_def]
      by_cases h0 : (s.take masks.length).length = 0
      · rw [dif_pos h0]; simp
      · rw [dif_neg h0]
        have hmpos : 0 < masks.length := by
          simp only [List.length_take] at h0
          omega
        have hspos : 0 < s.length := by
          simp only [List.length_take] at h0
          omega
        have hrec := ih (s.drop masks.length)
          (by simp only [List.length_drop]; omega)
        by_cases hcond : (s.take masks.length).length < masks.length ∧
            end_fill = none
        · rw [if_pos hcond]; simp
        · rw [if_neg hcond]
          simp only [List.length_cons]
          simp only [List.length_drop] at hrec
          omega
  intro s
  exact key s.length s (Nat.le_refl _)

/-! ### The claims -/

/-- C1: for every mask sequence built by `create(width, signed, lsb_first,
group_width)` with valid arguments (`width > 0`, `width` divisible by
`group_width` when given), and every integer `v` representable under that
width and signedness (`v ∈ [-2^(width-1), 2^(width-1)-1]` if signed,
`v ∈ [0, 2^width - 1]` if unsigned),
`combine(masks, apply(masks, v)) == v`. -/
theorem claim_C1_roundtrip (width : Nat) (signed lsb_first : Bool)
    (group_width : Nat) (masks : List Int) (v : Int)
    (hw : 0 < width)
    (hdvd : group_width ≠ 0 → group_width ∣ width)
    (hm : create width signed lsb_first group_width = some masks)
    (hv : if signed = true then
        -(2 : Int) ^ (width - 1) ≤ v ∧ v ≤ (2 : Int) ^ (width - 1) - 1
      else 0 ≤ v ∧ v ≤ (2 : Int) ^ width - 1) :
    combine masks (apply masks v) = v := by
  have hms : masks = create_spec width signed lsb_first group_width := by
    have h := create_eq_create_spec width signed lsb_first group_width hw
    rw [hm] at h
    exact Option.some.inj h
  have hperm : masks.Perm (baseMasks width signed) := by
    rw [hms]
    exact create_spec_perm_baseMasks width signed lsb_first group_width hw
  apply roundtrip_of_perm width signed masks v hw hperm
  cases signed with
  | false =>
    rw [if_neg (show ¬ (false = true) by decide)] at hv
    rw [if_neg (show ¬ (false = true) by decide)]
    exact ⟨hv.1, by linarith [hv.2]⟩
  | true =>
    rw [if_pos (show (true = true) from rfl)] at hv
    rw [if_pos (show (true = true) from rfl)]
    exact ⟨hv.1, by linarith [hv.2]⟩

/-- Witness for C1 at `width = 8`, signed, MSB first, no grouping,
`v = -100`. -/
theorem claim_C1_roundtrip_witness :
    (0 < 8 ∧ create 8 true false 0 = some [-128, 64, 32, 16, 8, 4, 2, 1])
    ∧ combine [-128, 64, 32, 16, 8, 4, 2, 1]
        (apply [-128, 64, 32, 16, 8, 4, 2, 1] (-100)) = -100 :=
  ⟨⟨by decide, by decide⟩,
    claim_C1_roundtrip 8 true false 0 [-128, 64, 32, 16, 8, 4, 2, 1] (-100)
      (by decide) (by decide) (by decide) (by decide)⟩

/-- C2: for every `width > 0`, `create` returns exactly the sequence
obtained by listing the weights `2^0 .. 2^(width-1)` ascending; if signed,
replacing the last (highest) weight by its negation `-2^(width-1)`; if not
`lsb_first`, reversing the whole sequence; and if `group_width` is truthy,
partitioning into consecutive chunks of `group_width` and concatenating
the chunks in reverse order; a falsy `group_width` skips grouping with no
error.  That construction is `create_spec`. -/
theorem claim_C2_create_shape (width : Nat) (signed lsb_first : Bool)
    (group_width : Nat) (hw : 0 < width) :
    create width signed lsb_first group_width
      = some (create_spec width signed lsb_first group_width) :=
  create_eq_create_spec width signed lsb_first group_width hw

/-- Witness for C2 at `width = 16`, unsigned, MSB first, byte-group
reversal (the `UINT16_LE` layout). -/
theorem claim_C2_create_shape_witness :
    (0 < 16) ∧ create 16 false false 8 = some (create_spec 16 false false 8) :=
  ⟨by decide, claim_C2_create_shape 16 false false 8 (by decide)⟩

/-- C4: with effective fill policy `None` and `0 < len(bits) < len(masks)`
remaining, `iter_ints` (and `iter_bytes` on the same masks) yields nothing
and the stream still contains exactly those bits in their original
order.  -/
theorem claim_C4_none_fill_writeback (masks s : List Int)
    (h1 : 0 < s.length) (h2 : s.length < masks.length) :
    iter_ints masks none s = ([], s)
    ∧ iter_bytes masks none s = ([], s) := by
  have hne : masks.isEmpty = false := by
    cases masks with
    | nil => simp at h2
    | cons m ms => rfl
  constructor
  · exact iter_ints_short_none masks s h1 h2
  · unfold iter_bytes
    rw [hne]
    rw [if_neg (show ¬ (false = true) by decide)]
    exact iter_ints_short_none masks s h1 h2

/-- Witness for C4: five bits against the default 8-bit masks. -/
theorem claim_C4_none_fill_writeback_witness :
    (0 < 5 ∧ 5 < 8)
    ∧ iter_ints UINT8_MSB_FIRST none [1, 1, 0, 1, 1] = ([], [1, 1, 0, 1, 1]) :=
  ⟨⟨by decide, by decide⟩,
    (claim_C4_none_fill_writeback UINT8_MSB_FIRST [1, 1, 0, 1, 1]
      (by decide) (by decide)).1⟩

/-- C5, as stated, is false: `create` never validates.  A `group_width`
of 3 does not divide a width of 8, yet `create` silently returns a mask
sequence; a width of 0 with `signed=False` silently returns the empty
sequence. -/
theorem claim_C5_counterexample :
    ¬ (3 ∣ 8)
    ∧ create 8 false false 3 = some [2, 1, 16, 8, 4, 128, 64, 32]
    ∧ create 0 false false 0 = some [] := by
  decide

/-- C5 amended: `create` performs no argument validation at all.  The only
way it fails is `signed=True` with `width ≤ 0` (the `bits.pop()` of an
empty list, an `IndexError`, not an `InvalidArgument`-class error); an
unsigned non-positive width silently yields the empty sequence and a
non-dividing `group_width` is accepted silently. -/
theorem claim_C5_no_validation (width : Nat) (signed lsb_first : Bool)
    (group_width : Nat) :
    create width signed lsb_first group_width = none
      ↔ signed = true ∧ width = 0 :=
  create_eq_none_iff width signed lsb_first group_width

/-- C6: `combine` pairs masks with bits stopping at the shorter of the
two and ORs, from 0, the weights whose paired bit is truthy; padding the
bits with zeros up to `len(masks)` changes nothing; `combine` on an empty
mask sequence (or empty bits) returns 0; `apply` on an empty mask
sequence yields an empty sequence. -/
theorem claim_C6_combine_semantics :
    (∀ masks bits : List Int,
      combine masks bits
        = (((bits.zip masks).filter (fun bm => decide (bm.1 ≠ 0))).map
            Prod.snd).foldl Int.lor 0)
    ∧ (∀ masks bits : List Int,
      combine masks (bits ++ List.replicate (masks.length - bits.length) 0)
        = combine masks bits)
    ∧ (∀ bits : List Int, combine [] bits = 0)
    ∧ (∀ masks : List Int, combine masks [] = 0)
    ∧ (∀ v : Int, apply [] v = []) :=
  ⟨combine_eq_filter_foldl,
   fun masks bits => combine_append_replicate_zero masks bits _,
   combine_nil_masks, combine_nil_bits, apply_nil⟩

/-- C7: under the default zero fill, a final group of `0 < k < len(masks)`
bits yields the combination of those `k` bits against the first `k` masks
(no explicit padding), which equals the zero-padded combination, and the
stream is left empty; concretely five 1-bits drained as 8-bit
MSB-first groups give the single byte 248 with nothing left. -/
theorem claim_C7_zero_fill_tail (masks s : List Int)
    (h1 : 0 < s.length) (h2 : s.length < masks.length) :
    iter_ints masks (some 0) s = ([combine masks s], [])
    ∧ combine masks s
        = combine masks (s ++ List.replicate (masks.length - s.length) 0)
    ∧ iter_ints UINT8_MSB_FIRST (some 0) [1, 1, 1, 1, 1] = ([248], []) :=
  ⟨iter_ints_short_zero masks s h1 h2,
   (combine_append_replicate_zero masks s _).symm,
   by
    rw [iter_ints_short_zero UINT8_MSB_FIRST [1, 1, 1, 1, 1]
      (by decide) (by decide)]
    decide⟩

/-- Witness for C7: five bits against the default 8-bit masks. -/
theorem claim_C7_zero_fill_tail_witness :
    (0 < 5 ∧ 5 < 8)
    ∧ iter_ints UINT8_MSB_FIRST (some 0) [1, 1, 0, 1, 1]
        = ([combine UINT8_MSB_FIRST [1, 1, 0, 1, 1]], []) :=
  ⟨⟨by decide, by decide⟩,
    (claim_C7_zero_fill_tail UINT8_MSB_FIRST [1, 1, 0, 1, 1]
      (by decide) (by decide)).1⟩

/-- `-1 & m = m`: the all-ones two's-complement integer is the identity
of bitwise AND. -/
theorem int_land_neg_one (m : Int) : Int.land (-1) m = m := by
  have h : (-1 : Int) = Int.negSucc 0 := rfl
  rw [h]
  rcases m with p | p
  · rw [int_land_negSucc_ofNat]
    congr 1
    apply Nat.eq_of_testBit_eq
    intro k
    simp [Nat.testBit_ldiff]
  · rw [int_land_negSucc_negSucc]
    congr 1
    exact Nat.zero_or p

theorem apply_neg_one (ms : List Int) : apply ms (-1) = ms := by
  unfold apply
  rw [show (fun mask => Int.land (-1) mask) = id from funext int_land_neg_one]
  exact List.map_id ms

/-- C8: `combine(INT8_MSB_FIRST, ·)` over all-ones bits yields `-1`, and
`combine(UINT8_MSB_FIRST, ·)` over the same bits yields `255`: the sign
weight at the most significant position produces correct two's-complement
negatives when OR-combined with the other weights. -/
theorem claim_C8_sign_extension :
    combine INT8_MSB_FIRST (List.replicate 8 1) = -1
    ∧ combine UINT8_MSB_FIRST (List.replicate 8 1) = 255 := by
  constructor
  · have h2 : List.replicate 8 (1 : Int) = INT8_MSB_FIRST.map make_bit := by
      decide
    have h3 : INT8_MSB_FIRST.map make_bit
        = (apply INT8_MSB_FIRST (-1)).map make_bit := by
      rw [apply_neg_one]
    rw [h2, h3, combine_map_make_bit]
    exact roundtrip_of_perm 8 true INT8_MSB_FIRST (-1) (by norm_num)
      (by decide) (by norm_num)
  · have h2 : List.replicate 8 (1 : Int)
        = (apply UINT8_MSB_FIRST 255).map make_bit := by
      decide
    rw [h2, combine_map_make_bit]
    exact roundtrip_of_perm 8 false UINT8_MSB_FIRST 255 (by norm_num)
      (by decide) (by norm_num)

/-- C10: `iter_ints` with an empty mask sequence terminates immediately,
yields nothing and consumes nothing; and draining any finite stream
yields only finitely many integers (at most one per stream bit). -/
theorem claim_C10_termination :
    (∀ (end_fill : Option Int) (s : List Int),
      iter_ints [] end_fill s = ([], s))
    ∧ (∀ (masks : List Int) (end_fill : Option Int) (s : List Int),
      (iter_ints masks end_fill s).1.length ≤ s.length) :=
  ⟨iter_ints_nil_masks, fun masks ef s => iter_ints_length_le masks ef s⟩

/-- Draining a stream of whole byte groups written through `apply` gives
back the written values, for any mask sequence that permutes the unsigned
8-bit weights. -/
theorem drain_write_loop (masks : List Int) (end_fill : Option Int)
    (hlen8 : masks.length = 8) (hperm : masks.Perm (baseMasks 8 false)) :
    ∀ values : List Int, (∀ v ∈ values, 0 ≤ v ∧ v ≤ 255) →
      iter_ints masks end_fill
          ((values.map (apply masks)).flatten.map make_bit)
        = (values, []) := by
  intro values
  induction values with
  | nil =>
    intro _
    simp only [List.map_nil, List.flatten_nil]
    exact iter_ints_nil masks end_fill
  | cons v vs ih =>
    intro hv
    rw [List.map_cons, List.flatten_cons, List.map_append]
    rw [iter_ints_full masks end_fill _ _ (by simp [apply]) (by omega)]
    rw [ih (fun x hx => hv x (List.mem_cons_of_mem v hx))]
    rw [combine_map_make_bit]
    have hv0 := hv v (List.mem_cons_self v vs)
    rw [roundtrip_of_perm 8 false masks v (by norm_num) hperm (by
      rw [if_neg (show ¬ (false = true) by decide)]
      refine ⟨hv0.1, ?_⟩
      have h256 : (2 : Int) ^ 8 = 256 := by norm_num
      linarith [hv0.2])]

/-- C3: writing N byte values (0-255) with `write_bytes` (equivalently,
seeding via `from_bytes`) and draining with `iter_bytes` over the same
mask sequence yields exactly those N bytes in order, for every bit order
of the unsigned 8-bit mask sequence and every fill policy. -/
theorem claim_C3_byte_roundtrip (values masks : List Int)
    (end_fill : Option Int)
    (hperm : masks.Perm (baseMasks 8 false))
    (hv : ∀ v ∈ values, 0 ≤ v ∧ v ≤ 255) :
    iter_bytes masks end_fill (from_bytes values masks) = (values, [])
    ∧ from_bytes values masks = write_bytes values masks false [] := by
  have hlen8 : masks.length = 8 := by
    rw [hperm.length_eq]
    decide
  have hne : masks.isEmpty = false := by
    cases masks with
    | nil => simp at hlen8
    | cons m ms => rfl
  refine ⟨?_, rfl⟩
  unfold iter_bytes from_bytes write_bytes write_ints write_bits
  rw [hne]
  rw [List.nil_append]
  exact drain_write_loop masks end_fill hlen8 hperm values hv

/-- Witness for C3 with the LSB-first bit order and two byte values. -/
theorem claim_C3_byte_roundtrip_witness :
    (UINT8_LSB_FIRST.Perm (baseMasks 8 false)
      ∧ ∀ v ∈ [(18 : Int), 52], 0 ≤ v ∧ v ≤ 255)
    ∧ iter_bytes UINT8_LSB_FIRST (some 0)
        (from_bytes [18, 52] UINT8_LSB_FIRST) = ([18, 52], []) :=
  ⟨⟨by decide, by decide⟩,
    (claim_C3_byte_roundtrip [18, 52] UINT8_LSB_FIRST (some 0)
      (by decide) (by decide)).1⟩

/-! ### Evaluation rules for the token-stream model (claim C9) -/

theorem pull_bits_ok_front {ε : Type} (g : List Int)
    (s : List (Except ε Int)) :
    pull_bits g.length (g.map Except.ok ++ s) = (g, none, s) := by
  induction g with
  | nil => rfl
  | cons b bs ih => simp [pull_bits, ih]

theorem pull_bits_ok_front' {ε : Type} (n : Nat) (g : List Int)
    (s : List (Except ε Int)) (hg : g.length = n) :
    pull_bits n (g.map Except.ok ++ s) = (g, none, s) :=
  hg ▸ pull_bits_ok_front g s

theorem pull_bits_error_first {ε : Type} (n : Nat) (hn : 0 < n) (e : ε)
    (s : List (Except ε Int)) :
    pull_bits n (Except.error e :: s) = ([], some e, s) := by
  cases n with
  | zero => omega
  | succ n => rfl

theorem iter_ints_exc_error {ε : Type} (masks : List Int)
    (end_fill : Option Int) (e : ε) (s : List (Except ε Int))
    (hm : 0 < masks.length) :
    iter_ints_exc masks end_fill (Except.error e :: s) = ([], some e, s) := by
  rw [iter_ints_exc.eq_def]
  rw [pull_bits_error_first masks.length hm e s]

theorem iter_ints_exc_full {ε : Type} (masks : List Int)
    (end_fill : Option Int) (g : List Int) (rest : List (Except ε Int))
    (hg : g.length = masks.length) (hm : 0 < masks.length) :
    iter_ints_exc masks end_fill (g.map Except.ok ++ rest)
      = (combine masks g :: (iter_ints_exc masks end_fill rest).1,
          (iter_ints_exc masks end_fill rest).2.1,
          (iter_ints_exc masks end_fill rest).2.2) := by
  rw [iter_ints_exc.eq_def]
  rw [pull_bits_ok_front' masks.length g rest hg]
  dsimp only
  rw [if_neg (by omega : ¬ g.length = 0)]
  rw [if_neg (by simp [hg] : ¬ (g.length < masks.length ∧ end_fill = none))]
  rcases end_fill with _ | b
  · rfl
  · by_cases hb : b = 0
    · simp [hb]
    · simp [hb, hg]

theorem write_ints_exc_ok_error {ε : Type} (masks : List Int)
    (values : List Int) (e : ε) :
    write_ints_exc (values.map Except.ok ++ [Except.error e]) masks []
      = (values.map
          (fun v => ((apply masks v).map make_bit).map Except.ok)).flatten
        ++ [Except.error e] := by
  unfold write_ints_exc write_bits_exc
  rw [List.nil_append]
  induction values with
  | nil => rfl
  | cons v vs ih =>
    simp only [List.map_cons, List.cons_append]
    rw [int_bit_tokens]
    rw [List.map_append, List.map_map]
    rw [show (Except.map make_bit ∘ (Except.ok : Int → Except ε Int))
        = (Except.ok ∘ make_bit) from rfl]
    rw [← List.map_map]
    rw [List.flatten_cons, List.append_assoc]
    congr 1

theorem drain_write_exc_loop {ε : Type} (masks : List Int)
    (end_fill : Option Int) (e : ε)
    (hlen8 : masks.length = 8) (hperm : masks.Perm (baseMasks 8 false)) :
    ∀ values : List Int, (∀ v ∈ values, 0 ≤ v ∧ v ≤ 255) →
      iter_ints_exc masks end_fill
          ((values.map
            (fun v => ((apply masks v).map make_bit).map Except.ok)).flatten
          ++ [Except.error e])
        = (values, some e, []) := by
  intro values
  induction values with
  | nil =>
    intro _
    simp only [List.map_nil, List.flatten_nil, List.nil_append]
    exact iter_ints_exc_error masks end_fill e [] (by omega)
  | cons v vs ih =>
    intro hv
    rw [List.map_cons, List.flatten_cons, List.append_assoc]
    rw [iter_ints_exc_full masks end_fill _ _ (by simp [apply]) (by omega)]
    rw [ih (fun x hx => hv x (List.mem_cons_of_mem v hx))]
    rw [combine_map_make_bit]
    have hv0 := hv v (List.mem_cons_self v vs)
    rw [roundtrip_of_perm 8 false masks v (by norm_num) hperm (by
      rw [if_neg (show ¬ (false = true) by decide)]
      refine ⟨hv0.1, ?_⟩
      have h256 : (2 : Int) ^ 8 = 256 := by norm_num
      linarith [hv0.2])]

/-- C9: a lazy value source whose element raises does not raise at write
time (`write_ints_exc` is a total function on the token stream), and
draining surfaces that error unmodified at the group that first touches
the offending element: every value before it is still yielded, the bits
pulled before the failure stay consumed, and the stream is left in the
consistent state holding the tokens after the raising element. -/
theorem claim_C9_lazy_error_propagation {ε : Type} (values masks : List Int)
    (end_fill : Option Int) (e : ε)
    (hperm : masks.Perm (baseMasks 8 false))
    (hv : ∀ v ∈ values, 0 ≤ v ∧ v ≤ 255) :
    iter_ints_exc masks end_fill
        (write_ints_exc (values.map Except.ok ++ [Except.error e]) masks [])
      = (values, some e, []) := by
  have hlen8 : masks.length = 8 := by
    rw [hperm.length_eq]
    decide
  rw [write_ints_exc_ok_error]
  exact drain_write_exc_loop masks end_fill e hlen8 hperm values hv

/-- Witness for C9 with a single good byte then a raising element. -/
theorem claim_C9_lazy_error_propagation_witness :
    (UINT8_MSB_FIRST.Perm (baseMasks 8 false)
      ∧ ∀ v ∈ [(170 : Int)], 0 ≤ v ∧ v ≤ 255)
    ∧ iter_ints_exc UINT8_MSB_FIRST (some 0)
        (write_ints_exc ([(170 : Int)].map Except.ok ++ [Except.error ()])
          UINT8_MSB_FIRST [])
      = ([170], some (), []) :=
  ⟨⟨by decide, by decide⟩,
    claim_C9_lazy_error_propagation [170] UINT8_MSB_FIRST (some 0) ()
      (by decide) (by decide)⟩

end BitstreamIter
